import Mathlib

/-!
Verification of the fuzzy patch-apply engine of `simple-coder`
(`src/patch_apply.rs`).  Lines are modelled as `List Char`, file content as
`List Char`, buffers as `List (List Char)`.  Rust's `f64` similarity scores
are modelled exactly by `ℚ` (all scores the code computes are rationals of
tiny denominator, far from any double-rounding boundary), and the regex
`//\s*\.\.\.\s*existing\s*code\s*\.\.\.\s*` together with `Regex::is_match`
is modelled by an equivalent deterministic matcher (each `\s*` is followed
by a non-whitespace literal, so greedy whitespace skipping is exact).
-/

/-- A line of text, as a sequence of characters. -/
abbrev Line := List Char

/-- Model of the regex character class `\s` (ASCII part; the lines the
engine handles never contain the exotic Unicode whitespace). -/
def wsChar (c : Char) : Bool :=
  c = ' ' || c = '\t' || c = '\n' || c = '\r' || c = '\x0b' || c = '\x0c'

/-- Consume the literal `pat` from the front of `s`, returning the rest. -/
def litAfter : List Char → List Char → Option (List Char)
  | [], s => some s
  | _ :: _, [] => none
  | p :: ps, c :: cs => if c = p then litAfter ps cs else none

/-- Consume a maximal run of whitespace (regex `\s*`). -/
def dropWsPre (s : List Char) : List Char := s.dropWhile wsChar

/-- Does the marker regex `//\s*\.\.\.\s*existing\s*code\s*\.\.\.\s*` match
at the very start of `s`?  (The trailing `\s*` always matches.) -/
def markerFrom (s : List Char) : Bool :=
  match litAfter ['/', '/'] s with
  | none => false
  | some s1 =>
    match litAfter ['.', '.', '.'] (dropWsPre s1) with
    | none => false
    | some s2 =>
      match litAfter ['e', 'x', 'i', 's', 't', 'i', 'n', 'g'] (dropWsPre s2) with
      | none => false
      | some s3 =>
        match litAfter ['c', 'o', 'd', 'e'] (dropWsPre s3) with
        | none => false
        | some s4 => (litAfter ['.', '.', '.'] (dropWsPre s4)).isSome

/-- Model of `marker_pattern.is_match(line)` (patch_apply.rs:38,49): the
regex matches anywhere in the line. -/
def markerSearch : List Char → Bool
  | [] => markerFrom []
  | s@(_ :: rest) => markerFrom s || markerSearch rest

/-- The block-segmentation loop of `edit_file` (patch_apply.rs:48-62):
marker lines flush the current block (if non-empty); other lines are
appended to the current block; at the end the last block is pushed if
non-empty. -/
def segmentCore : List Line → List Line → List (List Line)
  | [], current => if current.isEmpty then [] else [current]
  | l :: rest, current =>
    if markerSearch l then
      (if current.isEmpty then segmentCore rest [] else current :: segmentCore rest [])
    else
      segmentCore rest (current ++ [l])

/-- `edit_blocks` as computed by `edit_file` (patch_apply.rs:44-67),
including the fall-back that treats the whole edit as one block when no
block was produced and the edit text has lines. -/
def editBlocks (edit_lines : List Line) : List (List Line) :=
  let blocks := segmentCore edit_lines []
  if blocks.isEmpty && !edit_lines.isEmpty then [edit_lines] else blocks

/-- One row step of the Levenshtein DP table of `similarity_score`
(patch_apply.rs:181-215): given the previous row `prev` (= `dp[i]`), the
character `x` (= `s1_chars[i]`) and the row index value `rowIdx` (= `i+1`),
produce row `dp[i+1]` as a function of the column `j`.
`dp[i+1][0] = i+1`; `dp[i+1][j+1] = min(min(dp[i][j+1]+1, dp[i+1][j]+1),
dp[i][j] + cost)` with `cost = 0` iff `s1_chars[i] == s2_chars[j]`. -/
def dpStep (s2 : List Char) (x : Char) (prev : Nat → Nat) (rowIdx : Nat) : Nat → Nat
  | 0 => rowIdx
  | j + 1 =>
    min (min (prev (j + 1) + 1) (dpStep s2 x prev rowIdx j + 1))
      (prev j + if x = s2.getD j ' ' then 0 else 1)

/-- Row `i` of the Levenshtein DP table for `s1`, `s2`: `dp[0][j] = j`
(patch_apply.rs:188-190), and row `i+1` is built from row `i` by `dpStep`
(`dp[i][0] = i` per patch_apply.rs:184-186). -/
def dpRowFun (s1 s2 : List Char) : Nat → Nat → Nat
  | 0 => fun j => j
  | i + 1 => dpStep s2 (s1.getD i ' ') (dpRowFun s1 s2 i) (i + 1)

/-- The edit distance `dp[s1_chars.len()][s2_chars.len()]`
(patch_apply.rs:217). -/
def levDistance (s1 s2 : List Char) : Nat :=
  dpRowFun s1 s2 s1.length s2.length

/-- `similarity_score` (patch_apply.rs:167-225), with `f64` modelled by `ℚ`.
The early return fires when `s1.len() + s2.len() == 0` (byte lengths, which
are zero exactly when the char lists are empty); otherwise the score is
`1 - distance / max_len` with `max_len` the larger char count (the
`max_len == 0` branch is kept for faithfulness though it is unreachable). -/
def similarity_score (s1 s2 : List Char) : ℚ :=
  if s1.length + s2.length = 0 then 1
  else
    let distance : ℚ := (levDistance s1 s2 : ℚ)
    let max_len : ℚ := ((max s1.length s2.length : Nat) : ℚ)
    if max_len = 0 then 1 else 1 - distance / max_len

/-- The exact-match scan of `find_best_match_position`
(patch_apply.rs:137-142): first index whose line equals the context line. -/
def findExactIdx (context_line : Line) : List Line → Nat → Option Nat
  | [], _ => none
  | l :: rest, i => if l = context_line then some i else findExactIdx context_line rest (i + 1)

/-- The fuzzy-scoring loop of `find_best_match_position`
(patch_apply.rs:144-156): fold over the buffer carrying
`(best_score, best_pos)`, updating only on a strictly greater score. -/
def fuzzyGo (context_line : Line) : List Line → Nat → ℚ × Nat → ℚ × Nat
  | [], _, acc => acc
  | l :: rest, i, (best_score, best_pos) =>
    let score := similarity_score l context_line
    if best_score < score then fuzzyGo context_line rest (i + 1) (score, i)
    else fuzzyGo context_line rest (i + 1) (best_score, best_pos)

/-- `find_best_match_position` (patch_apply.rs:118-165).  The context lines
are the first up-to-3 lines of the block whose `trim()` is non-empty
(i.e. that contain a non-whitespace character); only the first is matched.
The threshold `0.6` is the rational `3/5`. -/
def find_best_match_position (block original_lines : List Line) : Option Nat :=
  if block.isEmpty || original_lines.isEmpty then some 0
  else
    let context_lines := (block.filter fun l => !l.all wsChar).take 3
    match context_lines with
    | [] => some 0
    | context_line :: _ =>
      match findExactIdx context_line original_lines 0 with
      | some i => some i
      | none =>
        let r := fuzzyGo context_line original_lines 0 (0, 0)
        if mkRat 3 5 < r.1 then some r.2 else some 0

/-- One splice step of `edit_file` (patch_apply.rs:76-89): replace the
window `[start, start + replace_count)` around the matched position with
the block.  `saturating_sub` is `Nat` subtraction. -/
def spliceStep (result_lines : List Line) (block : List Line) (best_match_pos : Nat) : List Line :=
  let context_lines := 3
  let start := best_match_pos - context_lines
  let stop := min result_lines.length (best_match_pos + context_lines)
  let replace_count := min (stop - start) block.length
  result_lines.take start ++ block ++ result_lines.drop (start + replace_count)

/-- The per-block application loop of `edit_file` (patch_apply.rs:72-91). -/
def applyBlocks (blocks : List (List Line)) (original_lines : List Line) : List Line :=
  blocks.foldl
    (fun result_lines block =>
      match find_best_match_position block result_lines with
      | some best_match_pos => spliceStep result_lines block best_match_pos
      | none => result_lines)
    original_lines

/-- Strip one trailing carriage return (Rust's `lines()` strips a final
`\r` from a line that was terminated by `\n`). -/
def stripCrOnce (l : Line) : Line :=
  if l.getLast? = some '\r' then l.dropLast else l

/-- Worker for `rustLines`: `cur` is the (reversed) current line.  On `\n`
the line is emitted with a trailing `\r` stripped; a final line without a
terminator is emitted as-is (keeping any `\r`). -/
def linesGo (cur : List Char) : List Char → List Line
  | [] => [cur.reverse]
  | c :: rest =>
    if c = '\n' then
      stripCrOnce cur.reverse :: (if rest.isEmpty then [] else linesGo [] rest)
    else linesGo (c :: cur) rest

/-- Model of Rust's `str::lines()` (patch_apply.rs:41-42): split at `\n`
or `\r\n`, with an optional final terminator producing no extra line. -/
def rustLines (s : List Char) : List Line :=
  if s.isEmpty then [] else linesGo [] s

/-- Model of `result_lines.join("\n")` (patch_apply.rs:94). -/
def joinLines : List Line → List Char
  | [] => []
  | [l] => l
  | l :: l2 :: ls => l ++ '\n' :: joinLines (l2 :: ls)

/-- The pure content transformation performed by `edit_file` on an existing
file (patch_apply.rs:38-91): segment the edit text into blocks, then apply
each block to the working buffer seeded from the original lines. -/
def apply_edit (original_content code_edit : List Char) : List Line :=
  applyBlocks (editBlocks (rustLines code_edit)) (rustLines original_content)

/-- The content written back to the file (patch_apply.rs:93-95). -/
def new_content (original_content code_edit : List Char) : List Char :=
  joinLines (apply_edit original_content code_edit)

/-- Kernel-computable form of `similarity_score` (`Rat.divInt` reduces where
the field operations of `ℚ` are irreducible); proved equal to
`similarity_score` in `similarity_score_eq_calc`. -/
def simScoreCalc (s1 s2 : List Char) : ℚ :=
  if s1.length + s2.length = 0 then 1
  else Rat.divInt ((max s1.length s2.length : ℤ) - (levDistance s1 s2 : ℤ))
    (max s1.length s2.length : ℤ)

/-- The spec/claim-side description (C10) of "the original content with any
final trailing newline removed". -/
def stripFinalNewline (s : List Char) : List Char :=
  if s.getLast? = some '\n' then s.dropLast else s

/-- Modelled from the spec: tag of one diff output line (§4.4).  The diff
itself is computed by the external `similar` crate (`TextDiff::from_lines`,
patch_apply.rs:98), which is not part of this repository's sources. -/
inductive DiffTag where
  | unchanged : DiffTag
  | removed : DiffTag
  | added : DiffTag
deriving DecidableEq

/-- Modelled from the spec: length of a longest common subsequence of two
line sequences, the quantity underlying the "standard line-level
longest-common-subsequence diff" of §4.4. -/
def lcsLen : List Line → List Line → Nat
  | [], _ => 0
  | _ :: _, [] => 0
  | x :: xs, y :: ys =>
    if x = y then lcsLen xs ys + 1
    else max (lcsLen (x :: xs) ys) (lcsLen xs (y :: ys))
termination_by l1 l2 => l1.length + l2.length

/-- Modelled from the spec: the Diff Reporter of §4.4 (implemented by the
external `similar` crate): an LCS-based tagged line diff, emitting
deletions in original order and insertions at their resulting position. -/
def diffLines : List Line → List Line → List (DiffTag × Line)
  | [], ys => ys.map fun y => (DiffTag.added, y)
  | x :: xs, [] => (DiffTag.removed, x) :: diffLines xs []
  | x :: xs, y :: ys =>
    if x = y then (DiffTag.unchanged, x) :: diffLines xs ys
    else if lcsLen (x :: xs) ys ≤ lcsLen xs (y :: ys) then
      (DiffTag.removed, x) :: diffLines xs (y :: ys)
    else (DiffTag.added, y) :: diffLines (x :: xs) ys
termination_by l1 l2 => l1.length + l2.length

theorem dpRowFun_zero (s1 s2 : List Char) (j : Nat) : dpRowFun s1 s2 0 j = j := rfl

theorem dpRowFun_zero_right (s1 s2 : List Char) : ∀ i, dpRowFun s1 s2 i 0 = i
  | 0 => rfl
  | _ + 1 => rfl

theorem dpRowFun_succ (s1 s2 : List Char) (i j : Nat) :
    dpRowFun s1 s2 (i + 1) (j + 1) =
      min (min (dpRowFun s1 s2 i (j + 1) + 1) (dpRowFun s1 s2 (i + 1) j + 1))
        (dpRowFun s1 s2 i j + if s1.getD i ' ' = s2.getD j ' ' then 0 else 1) := rfl

theorem dpRowFun_symm (s1 s2 : List Char) : ∀ i j, dpRowFun s1 s2 i j = dpRowFun s2 s1 j i := by
  intro i
  induction i with
  | zero => intro j; rw [dpRowFun_zero, dpRowFun_zero_right]
  | succ i ih =>
    intro j
    induction j with
    | zero => rw [dpRowFun_zero_right, dpRowFun_zero]
    | succ j ihj =>
      rw [dpRowFun_succ, dpRowFun_succ, ih (j + 1), ihj, ih j]
      have hc : (s1.getD i ' ' = s2.getD j ' ') = (s2.getD j ' ' = s1.getD i ' ') := by
        simp [eq_comm]
      simp only [hc]
      rw [Nat.min_comm (dpRowFun s2 s1 (j + 1) i + 1)]

theorem dpRowFun_self (s : List Char) : ∀ i, dpRowFun s s i i = 0 := by
  intro i
  induction i with
  | zero => rfl
  | succ i ih =>
    rw [dpRowFun_succ, ih, if_pos rfl]
    omega

theorem levDistance_symm (s1 s2 : List Char) : levDistance s1 s2 = levDistance s2 s1 :=
  dpRowFun_symm s1 s2 s1.length s2.length

theorem levDistance_self (s : List Char) : levDistance s s = 0 :=
  dpRowFun_self s s.length

theorem similarity_score_symm (s1 s2 : List Char) :
    similarity_score s1 s2 = similarity_score s2 s1 := by
  simp only [similarity_score, Nat.add_comm s1.length s2.length,
    Nat.max_comm s1.length s2.length, levDistance_symm s1 s2]

theorem similarity_score_self (s : List Char) : similarity_score s s = 1 := by
  rcases s with _ | ⟨c, t⟩
  · rfl
  · simp only [similarity_score, levDistance_self]
    rw [if_neg (by simp)]
    rw [if_neg (show ((max (c :: t).length (c :: t).length : Nat) : ℚ) ≠ 0 from
      Nat.cast_ne_zero.mpr (by simp))]
    simp

theorem similarity_score_eq_calc (s1 s2 : List Char) :
    similarity_score s1 s2 = simScoreCalc s1 s2 := by
  simp only [similarity_score, simScoreCalc]
  split_ifs with h h2
  · rfl
  · exfalso
    have : max s1.length s2.length = 0 := by exact_mod_cast h2
    omega
  · rw [Rat.divInt_eq_div]
    have hM : ((max s1.length s2.length : Nat) : ℚ) ≠ 0 := h2
    push_cast
    push_cast at hM
    field_simp

theorem findExactIdx_spec (c : Line) :
    ∀ (lines : List Line) (k : Nat), c ∈ lines →
      ∃ i, findExactIdx c lines k = some (k + i) ∧ lines.get? i = some c ∧
        ∀ j < i, lines.get? j ≠ some c := by
  intro lines
  induction lines with
  | nil => intro k h; exact absurd h (List.not_mem_nil c)
  | cons l rest ih =>
    intro k h
    by_cases hl : l = c
    · refine ⟨0, ?_, ?_, ?_⟩
      · simp [findExactIdx, hl]
      · simp [hl]
      · intro j hj; exact absurd hj (Nat.not_lt_zero j)
    · have hm : c ∈ rest := by
        rcases List.mem_cons.mp h with h1 | h1
        · exact absurd h1.symm hl
        · exact h1
      obtain ⟨i, hfind, hget, hmin⟩ := ih (k + 1) hm
      refine ⟨i + 1, ?_, ?_, ?_⟩
      · simp only [findExactIdx, if_neg hl]
        rw [show k + (i + 1) = (k + 1) + i by omega]
        exact hfind
      · simpa using hget
      · intro j hj
        cases j with
        | zero => simp [hl]
        | succ j => simpa using hmin j (by omega)

theorem findExactIdx_none (c : Line) :
    ∀ (lines : List Line) (k : Nat), c ∉ lines → findExactIdx c lines k = none := by
  intro lines
  induction lines with
  | nil => intro k _; rfl
  | cons l rest ih =>
    intro k h
    have hl : l ≠ c := fun e => h (e ▸ List.mem_cons_self l rest)
    simp only [findExactIdx, if_neg hl]
    exact ih (k + 1) fun hc => h (List.mem_cons_of_mem l hc)

theorem fuzzyGo_stay (c : Line) :
    ∀ (ls : List Line) (i : Nat) (bs : ℚ) (bp : Nat),
      (∀ x ∈ ls, similarity_score x c ≤ bs) → fuzzyGo c ls i (bs, bp) = (bs, bp) := by
  intro ls
  induction ls with
  | nil => intro i bs bp _; rfl
  | cons l rest ih =>
    intro i bs bp h
    simp only [fuzzyGo]
    rw [if_neg (not_lt.mpr (h l (List.mem_cons_self l rest)))]
    exact ih (i + 1) bs bp fun x hx => h x (List.mem_cons_of_mem l hx)

theorem fuzzyGo_argmax (c : Line) (m : ℚ) :
    ∀ (ls : List Line) (i : Nat) (bs : ℚ) (bp : Nat),
      bs < m → (∃ x ∈ ls, similarity_score x c = m) →
      (∀ x ∈ ls, similarity_score x c ≤ m) →
      fuzzyGo c ls i (bs, bp) =
        (m, i + ls.findIdx fun l => decide (similarity_score l c = m)) := by
  intro ls
  induction ls with
  | nil =>
    intro i bs bp _ hex _
    obtain ⟨x, hx, _⟩ := hex
    exact absurd hx (List.not_mem_nil x)
  | cons l rest ih =>
    intro i bs bp hbs hex hub
    by_cases hl : similarity_score l c = m
    · simp only [fuzzyGo]
      rw [if_pos (by rw [hl]; exact hbs)]
      rw [fuzzyGo_stay c rest (i + 1) _ i
        (fun x hx => by rw [hl]; exact hub x (List.mem_cons_of_mem l hx))]
      simp [List.findIdx_cons, hl]
    · have hlt : similarity_score l c < m :=
        lt_of_le_of_ne (hub l (List.mem_cons_self l rest)) hl
      have hex2 : ∃ x ∈ rest, similarity_score x c = m := by
        obtain ⟨x, hx, hxm⟩ := hex
        rcases List.mem_cons.mp hx with h1 | h1
        · exact absurd (h1 ▸ hxm) hl
        · exact ⟨x, h1, hxm⟩
      have hub2 : ∀ x ∈ rest, similarity_score x c ≤ m :=
        fun x hx => hub x (List.mem_cons_of_mem l hx)
      simp only [fuzzyGo]
      by_cases hup : bs < similarity_score l c
      · rw [if_pos hup, ih (i + 1) _ i hlt hex2 hub2]
        simp [List.findIdx_cons, hl]
        omega
      · rw [if_neg hup, ih (i + 1) bs bp hbs hex2 hub2]
        simp [List.findIdx_cons, hl]
        omega

theorem fuzzyGo_fst_le (c : Line) (M : ℚ) :
    ∀ (ls : List Line) (i : Nat) (bs : ℚ) (bp : Nat),
      bs ≤ M → (∀ x ∈ ls, similarity_score x c ≤ M) →
      (fuzzyGo c ls i (bs, bp)).1 ≤ M := by
  intro ls
  induction ls with
  | nil => intro i bs bp h _; exact h
  | cons l rest ih =>
    intro i bs bp h hub
    simp only [fuzzyGo]
    by_cases hup : bs < similarity_score l c
    · rw [if_pos hup]
      exact ih (i + 1) _ i (hub l (List.mem_cons_self l rest))
        fun x hx => hub x (List.mem_cons_of_mem l hx)
    · rw [if_neg hup]
      exact ih (i + 1) bs bp h fun x hx => hub x (List.mem_cons_of_mem l hx)

/-- C3: if the fragment's first non-empty (non-blank) line is
character-for-character equal to at least one buffer line, the locator
returns the smallest index of such a buffer line (and the fuzzy pass is
never consulted: the result is fixed by the exact scan). -/
theorem c3_exact_anchor (block buffer : List Line) (c : Line)
    (hc : ((block.filter fun l => !l.all wsChar).take 3).head? = some c)
    (hmem : c ∈ buffer) :
    ∃ i, find_best_match_position block buffer = some i ∧
      buffer.get? i = some c ∧ ∀ j < i, buffer.get? j ≠ some c := by
  obtain ⟨t, ht⟩ : ∃ t, (block.filter fun l => !l.all wsChar).take 3 = c :: t := by
    cases h2 : (block.filter fun l => !l.all wsChar).take 3 with
    | nil => rw [h2] at hc; simp at hc
    | cons a t =>
      rw [h2] at hc
      simp only [List.head?_cons, Option.some_inj] at hc
      exact ⟨t, by rw [hc]⟩
  have hbe : block.isEmpty = false := by
    cases block with
    | nil => simp at ht
    | cons a b => rfl
  have hbufe : buffer.isEmpty = false := by
    cases buffer with
    | nil => exact absurd hmem (List.not_mem_nil c)
    | cons a b => rfl
  obtain ⟨i, hfind, hget, hmin⟩ := findExactIdx_spec c buffer 0 hmem
  refine ⟨i, ?_, hget, hmin⟩
  simp only [find_best_match_position, hbe, hbufe, Bool.or_self, Bool.false_eq_true,
    if_false, ht]
  rw [hfind]
  simp

/-- C4: with no exact match for the first non-blank context line, the
locator still returns an index: the first index achieving the maximum
fuzzy similarity when that maximum exceeds 0.6 (= 3/5), and 0 otherwise. -/
theorem c4_fuzzy_anchor (block buffer : List Line) (c : Line) (m : ℚ)
    (hc : ((block.filter fun l => !l.all wsChar).take 3).head? = some c)
    (hnomem : c ∉ buffer)
    (hex : ∃ x ∈ buffer, similarity_score x c = m)
    (hub : ∀ x ∈ buffer, similarity_score x c ≤ m) :
    (mkRat 3 5 < m →
      find_best_match_position block buffer =
        some (buffer.findIdx fun l => decide (similarity_score l c = m))) ∧
    (m ≤ mkRat 3 5 → find_best_match_position block buffer = some 0) := by
  obtain ⟨t, ht⟩ : ∃ t, (block.filter fun l => !l.all wsChar).take 3 = c :: t := by
    cases h2 : (block.filter fun l => !l.all wsChar).take 3 with
    | nil => rw [h2] at hc; simp at hc
    | cons a t =>
      rw [h2] at hc
      simp only [List.head?_cons, Option.some_inj] at hc
      exact ⟨t, by rw [hc]⟩
  have hbe : block.isEmpty = false := by
    cases block with
    | nil => simp at ht
    | cons a b => rfl
  have hbufe : buffer.isEmpty = false := by
    obtain ⟨x, hx, _⟩ := hex
    cases buffer with
    | nil => exact absurd hx (List.not_mem_nil x)
    | cons a b => rfl
  have hnone : findExactIdx c buffer 0 = none := findExactIdx_none c buffer 0 hnomem
  have hmain : find_best_match_position block buffer =
      if mkRat 3 5 < (fuzzyGo c buffer 0 (0, 0)).1
      then some (fuzzyGo c buffer 0 (0, 0)).2 else some 0 := by
    simp only [find_best_match_position, hbe, hbufe, Bool.or_self, Bool.false_eq_true,
      if_false, ht]
    rw [hnone]
  constructor
  · intro hm
    have h0m : (0 : ℚ) < m := by
      refine lt_trans ?_ hm
      rw [Rat.mkRat_eq_div]
      norm_num
    rw [hmain, fuzzyGo_argmax c m buffer 0 0 0 h0m hex hub]
    simp [hm]
  · intro hm
    have hle : (fuzzyGo c buffer 0 (0, 0)).1 ≤ mkRat 3 5 := by
      refine fuzzyGo_fst_le c (mkRat 3 5) buffer 0 0 0 ?_ ?_
      · rw [Rat.mkRat_eq_div]; norm_num
      · exact fun x hx => le_trans (hub x hx) hm
    rw [hmain, if_neg (not_lt.mpr hle)]

/-- Witness for `c3_exact_anchor` at a concrete fragment and buffer. -/
theorem c3_exact_anchor_witness :
    ((([[ 'b' ]] : List Line).filter fun l => !l.all wsChar).take 3).head? = some ['b'] ∧
    (['b'] : Line) ∈ ([[ 'a' ], ['b']] : List Line) ∧
    (∃ i, find_best_match_position [['b']] [['a'], ['b']] = some i ∧
      ([[ 'a' ], ['b']] : List Line).get? i = some ['b'] ∧
      ∀ j < i, ([[ 'a' ], ['b']] : List Line).get? j ≠ some ['b']) :=
  ⟨by decide, by decide,
    c3_exact_anchor [['b']] [['a'], ['b']] ['b'] (by decide) (by decide)⟩

/-- Witness for `c4_fuzzy_anchor` at a concrete fragment and buffer
(context line "zz", buffer ["a", "zzz"], maximum similarity 2/3). -/
theorem c4_fuzzy_anchor_witness :
    ((([[ 'z', 'z' ]] : List Line).filter fun l => !l.all wsChar).take 3).head? =
      some ['z', 'z'] ∧
    (['z', 'z'] : Line) ∉ ([[ 'a' ], ['z', 'z', 'z']] : List Line) ∧
    (∃ x ∈ ([[ 'a' ], ['z', 'z', 'z']] : List Line),
      similarity_score x ['z', 'z'] = mkRat 2 3) ∧
    (∀ x ∈ ([[ 'a' ], ['z', 'z', 'z']] : List Line),
      similarity_score x ['z', 'z'] ≤ mkRat 2 3) ∧
    ((mkRat 3 5 < mkRat 2 3 →
      find_best_match_position [['z', 'z']] [['a'], ['z', 'z', 'z']] =
        some (([[ 'a' ], ['z', 'z', 'z']] : List Line).findIdx
          fun l => decide (similarity_score l ['z', 'z'] = mkRat 2 3))) ∧
    (mkRat 2 3 ≤ mkRat 3 5 →
      find_best_match_position [['z', 'z']] [['a'], ['z', 'z', 'z']] = some 0)) :=
  ⟨by decide, by decide,
    by simp only [similarity_score_eq_calc]; decide,
    by simp only [similarity_score_eq_calc]; decide,
    c4_fuzzy_anchor [['z', 'z']] [['a'], ['z', 'z', 'z']] ['z', 'z'] (mkRat 2 3)
      (by decide) (by decide)
      (by simp only [similarity_score_eq_calc]; decide)
      (by simp only [similarity_score_eq_calc]; decide)⟩

/-- C2: one splice step at an anchor returned by the locator produces
exactly `b[0..start] ++ f ++ b[start+replaceCount..]`, with
`start = max(0, a-3)`, `end = min(len b, a+3)` and
`replaceCount = min(end - start, len f)` (context width C = 3). -/
theorem c2_splice_formula (b f : List Line) (a : Nat)
    (_h : find_best_match_position f b = some a) :
    spliceStep b f a =
      b.take (max 0 ((a : ℤ) - 3)).toNat ++ f ++
        b.drop ((max 0 ((a : ℤ) - 3)).toNat +
          min (min b.length (a + 3) - (max 0 ((a : ℤ) - 3)).toNat) f.length) := by
  have hs : (max 0 ((a : ℤ) - 3)).toNat = a - 3 := by omega
  rw [hs]
  rfl

/-- Witness for `c2_splice_formula` at a concrete buffer and fragment. -/
theorem c2_splice_formula_witness :
    find_best_match_position [['b']] [['a'], ['b']] = some 1 ∧
    spliceStep [['a'], ['b']] [['b']] 1 =
      ([[ 'a' ], ['b']] : List Line).take (max 0 ((1 : ℤ) - 3)).toNat ++ [['b']] ++
        ([[ 'a' ], ['b']] : List Line).drop ((max 0 ((1 : ℤ) - 3)).toNat +
          min (min ([[ 'a' ], ['b']] : List Line).length (1 + 3) -
            (max 0 ((1 : ℤ) - 3)).toNat) ([[ 'b' ]] : List Line).length) :=
  ⟨by decide, c2_splice_formula [['a'], ['b']] [['b']] 1 (by decide)⟩

/-- C9: in every splice step the number of removed lines
`replaceCount = min(min(len b, a+3) - (a-3), len f)` is at most
`min(2*C, len f)` with C = 3, never exceeds the buffer length, and the
resulting length is `len b - replaceCount + len f ≥ 0`; since the
sequential application `applyBlocks` folds exactly this step over the
fragments, the bound holds for every fragment applied in sequence. -/
theorem c9_splice_bounds (b f : List Line) (a : Nat) :
    min (min b.length (a + 3) - (a - 3)) f.length ≤ min (2 * 3) f.length ∧
    min (min b.length (a + 3) - (a - 3)) f.length ≤ b.length ∧
    ((spliceStep b f a).length : ℤ) =
      (b.length : ℤ) - ((min (min b.length (a + 3) - (a - 3)) f.length : ℕ) : ℤ) +
        (f.length : ℤ) ∧
    (0 : ℤ) ≤ (b.length : ℤ) - ((min (min b.length (a + 3) - (a - 3)) f.length : ℕ) : ℤ) +
        (f.length : ℤ) := by
  have hlen : (spliceStep b f a).length =
      b.length - min (min b.length (a + 3) - (a - 3)) f.length + f.length := by
    simp only [spliceStep, List.length_append, List.length_take, List.length_drop]
    omega
  refine ⟨by omega, by omega, ?_, by omega⟩
  rw [hlen]
  omega

/-- C7: the similarity function is symmetric, `similarity(s, s) = 1.0` for
every string `s`, and `similarity("", "") = 1.0`. -/
theorem c7_similarity_symm_refl :
    (∀ s1 s2 : List Char, similarity_score s1 s2 = similarity_score s2 s1) ∧
    (∀ s : List Char, similarity_score s s = 1) ∧
    similarity_score [] [] = 1 :=
  ⟨similarity_score_symm, similarity_score_self, similarity_score_self []⟩

/-- C1 counterexample: on the spec's own scenario (original lines
`a b c d e`, single fragment `b X d`), the engine does NOT produce
`["X","d","d","e"]` — the splice keeps line `"b"`. -/
theorem c1_counterexample :
    apply_edit "a\nb\nc\nd\ne".toList "b\nX\nd".toList ≠
      [['X'], ['d'], ['d'], ['e']] := by decide

/-- C1 amended: the fragment anchors at index 1, with window
`[start, end] = [0, 4]` and `replaceCount = 3`, and the resulting working
buffer is `["b","X","d","d","e"]`. -/
theorem c1_amended_worked_example :
    editBlocks (rustLines "b\nX\nd".toList) = [[['b'], ['X'], ['d']]] ∧
    find_best_match_position [['b'], ['X'], ['d']] (rustLines "a\nb\nc\nd\ne".toList) =
      some 1 ∧
    (1 : Nat) - 3 = 0 ∧
    min (rustLines "a\nb\nc\nd\ne".toList).length (1 + 3) = 4 ∧
    min (4 - 0) ([[ 'b' ], ['X'], ['d']] : List Line).length = 3 ∧
    apply_edit "a\nb\nc\nd\ne".toList "b\nX\nd".toList =
      [['b'], ['X'], ['d'], ['d'], ['e']] := by decide

theorem litAfter_eq_some : ∀ (pat s r : List Char), litAfter pat s = some r → s = pat ++ r := by
  intro pat
  induction pat with
  | nil =>
    intro s r h
    simp only [litAfter, Option.some_inj] at h
    rw [h]
    rfl
  | cons p ps ih =>
    intro s r h
    cases s with
    | nil => exact absurd h (by simp [litAfter])
    | cons c cs =>
      simp only [litAfter] at h
      by_cases hc : c = p
      · rw [if_pos hc] at h
        rw [hc, List.cons_append, ih cs r h]
      · rw [if_neg hc] at h
        cases h

theorem litAfter_append (pat r : List Char) : litAfter pat (pat ++ r) = some r := by
  induction pat with
  | nil => rfl
  | cons p ps ih => simp [litAfter, ih]

theorem dropWsPre_ws_append : ∀ (w : List Char) (c : Char) (r : List Char),
    (∀ x ∈ w, wsChar x = true) → wsChar c = false → dropWsPre (w ++ c :: r) = c :: r := by
  intro w
  induction w with
  | nil =>
    intro c r _ hc
    simp [dropWsPre, List.dropWhile_cons, hc]
  | cons a w ih =>
    intro c r hw hc
    have ha : wsChar a = true := hw a (List.mem_cons_self a w)
    simp only [List.cons_append, dropWsPre, List.dropWhile_cons, ha, if_true]
    exact ih c r (fun x hx => hw x (List.mem_cons_of_mem a hx)) hc

theorem exists_ws_split (s : List Char) :
    ∃ w, (∀ x ∈ w, wsChar x = true) ∧ s = w ++ dropWsPre s :=
  ⟨s.takeWhile wsChar, fun x hx => List.mem_takeWhile_imp hx,
    (List.takeWhile_append_dropWhile wsChar s).symm⟩

theorem markerFrom_eq_true : ∀ (s : List Char), markerFrom s = true →
    ∃ w1 w2 w3 w4 rest,
      (∀ x ∈ w1, wsChar x = true) ∧ (∀ x ∈ w2, wsChar x = true) ∧
      (∀ x ∈ w3, wsChar x = true) ∧ (∀ x ∈ w4, wsChar x = true) ∧
      s = '/' :: '/' :: (w1 ++ '.' :: '.' :: '.' ::
        (w2 ++ 'e' :: 'x' :: 'i' :: 's' :: 't' :: 'i' :: 'n' :: 'g' ::
          (w3 ++ 'c' :: 'o' :: 'd' :: 'e' :: (w4 ++ '.' :: '.' :: '.' :: rest)))) := by
  intro s h
  unfold markerFrom at h
  split at h
  · simp at h
  rename_i s1 heq1
  split at h
  · simp at h
  rename_i s2 heq2
  split at h
  · simp at h
  rename_i s3 heq3
  split at h
  · simp at h
  rename_i s4 heq4
  cases heq5 : litAfter ['.', '.', '.'] (dropWsPre s4) with
  | none => rw [heq5] at h; simp at h
  | some rest =>
  obtain ⟨w1, hw1, e1⟩ := exists_ws_split s1
  obtain ⟨w2, hw2, e2⟩ := exists_ws_split s2
  obtain ⟨w3, hw3, e3⟩ := exists_ws_split s3
  obtain ⟨w4, hw4, e4⟩ := exists_ws_split s4
  refine ⟨w1, w2, w3, w4, rest, hw1, hw2, hw3, hw4, ?_⟩
  rw [litAfter_eq_some _ _ _ heq1, e1, litAfter_eq_some _ _ _ heq2, e2,
    litAfter_eq_some _ _ _ heq3, e3, litAfter_eq_some _ _ _ heq4, e4,
    litAfter_eq_some _ _ _ heq5]
  rfl

theorem markerFrom_of_decomp (w1 w2 w3 w4 rest : List Char)
    (h1 : ∀ x ∈ w1, wsChar x = true) (h2 : ∀ x ∈ w2, wsChar x = true)
    (h3 : ∀ x ∈ w3, wsChar x = true) (h4 : ∀ x ∈ w4, wsChar x = true) :
    markerFrom ('/' :: '/' :: (w1 ++ '.' :: '.' :: '.' ::
      (w2 ++ 'e' :: 'x' :: 'i' :: 's' :: 't' :: 'i' :: 'n' :: 'g' ::
        (w3 ++ 'c' :: 'o' :: 'd' :: 'e' :: (w4 ++ '.' :: '.' :: '.' :: rest))))) = true := by
  have e1 : litAfter ['/', '/'] ('/' :: '/' :: (w1 ++ '.' :: '.' :: '.' ::
      (w2 ++ 'e' :: 'x' :: 'i' :: 's' :: 't' :: 'i' :: 'n' :: 'g' ::
        (w3 ++ 'c' :: 'o' :: 'd' :: 'e' :: (w4 ++ '.' :: '.' :: '.' :: rest))))) =
      some (w1 ++ '.' :: '.' :: '.' ::
        (w2 ++ 'e' :: 'x' :: 'i' :: 's' :: 't' :: 'i' :: 'n' :: 'g' ::
          (w3 ++ 'c' :: 'o' :: 'd' :: 'e' :: (w4 ++ '.' :: '.' :: '.' :: rest)))) :=
    litAfter_append _ _
  have d1 := dropWsPre_ws_append w1 '.' ('.' :: '.' ::
      (w2 ++ 'e' :: 'x' :: 'i' :: 's' :: 't' :: 'i' :: 'n' :: 'g' ::
        (w3 ++ 'c' :: 'o' :: 'd' :: 'e' :: (w4 ++ '.' :: '.' :: '.' :: rest)))) h1 (by decide)
  have e2 : litAfter ['.', '.', '.'] ('.' :: '.' :: '.' ::
      (w2 ++ 'e' :: 'x' :: 'i' :: 's' :: 't' :: 'i' :: 'n' :: 'g' ::
        (w3 ++ 'c' :: 'o' :: 'd' :: 'e' :: (w4 ++ '.' :: '.' :: '.' :: rest)))) =
      some (w2 ++ 'e' :: 'x' :: 'i' :: 's' :: 't' :: 'i' :: 'n' :: 'g' ::
        (w3 ++ 'c' :: 'o' :: 'd' :: 'e' :: (w4 ++ '.' :: '.' :: '.' :: rest))) :=
    litAfter_append _ _
  have d2 := dropWsPre_ws_append w2 'e' ('x' :: 'i' :: 's' :: 't' :: 'i' :: 'n' :: 'g' ::
      (w3 ++ 'c' :: 'o' :: 'd' :: 'e' :: (w4 ++ '.' :: '.' :: '.' :: rest))) h2 (by decide)
  have e3 : litAfter ['e', 'x', 'i', 's', 't', 'i', 'n', 'g']
      ('e' :: 'x' :: 'i' :: 's' :: 't' :: 'i' :: 'n' :: 'g' ::
        (w3 ++ 'c' :: 'o' :: 'd' :: 'e' :: (w4 ++ '.' :: '.' :: '.' :: rest))) =
      some (w3 ++ 'c' :: 'o' :: 'd' :: 'e' :: (w4 ++ '.' :: '.' :: '.' :: rest)) :=
    litAfter_append _ _
  have d3 := dropWsPre_ws_append w3 'c' ('o' :: 'd' :: 'e' ::
      (w4 ++ '.' :: '.' :: '.' :: rest)) h3 (by decide)
  have e4 : litAfter ['c', 'o', 'd', 'e']
      ('c' :: 'o' :: 'd' :: 'e' :: (w4 ++ '.' :: '.' :: '.' :: rest)) =
      some (w4 ++ '.' :: '.' :: '.' :: rest) :=
    litAfter_append _ _
  have d4 := dropWsPre_ws_append w4 '.' ('.' :: '.' :: rest) h4 (by decide)
  have e5 : litAfter ['.', '.', '.'] ('.' :: '.' :: '.' :: rest) = some rest :=
    litAfter_append _ _
  simp [markerFrom, e1, d1, e2, d2, e3, d3, e4, d4, e5]

theorem markerSearch_append_of_from : ∀ (p t : List Char),
    markerFrom t = true → markerSearch (p ++ t) = true := by
  intro p
  induction p with
  | nil =>
    intro t h
    cases t with
    | nil => simp [markerFrom, litAfter] at h
    | cons c cs => simpa [markerSearch] using Or.inl h
  | cons a p ih =>
    intro t h
    simp [markerSearch, ih t h]

theorem markerSearch_eq_true : ∀ (l : List Char),
    markerSearch l = true → ∃ p t, l = p ++ t ∧ markerFrom t = true := by
  intro l
  induction l with
  | nil => intro h; simp [markerSearch, markerFrom, litAfter] at h
  | cons c cs ih =>
    intro h
    simp only [markerSearch, Bool.or_eq_true] at h
    rcases h with h1 | h1
    · exact ⟨[], c :: cs, rfl, h1⟩
    · obtain ⟨p, t, e, hf⟩ := ih h1
      exact ⟨c :: p, t, by rw [e]; rfl, hf⟩

/-- C5 counterexample: the uppercase variant named by the claim is NOT
recognized as an elision marker (the regex is case-sensitive), while the
lowercase form is. -/
theorem c5_counterexample :
    markerSearch ("// ... EXISTING CODE ...".toList) = false ∧
    markerSearch ("// ... existing code ...".toList) = true := by decide

/-- C5 amended: a line is treated as an elision marker exactly when it
contains `//`, `...`, `existing`, `code`, `...` in that order, in
lowercase, with arbitrary whitespace between the tokens (case-sensitive,
spacing-insensitive). -/
theorem c5_amended_marker_char (l : Line) :
    markerSearch l = true ↔
      ∃ p w1 w2 w3 w4 rest,
        (∀ x ∈ w1, wsChar x = true) ∧ (∀ x ∈ w2, wsChar x = true) ∧
        (∀ x ∈ w3, wsChar x = true) ∧ (∀ x ∈ w4, wsChar x = true) ∧
        l = p ++ '/' :: '/' :: (w1 ++ '.' :: '.' :: '.' ::
          (w2 ++ 'e' :: 'x' :: 'i' :: 's' :: 't' :: 'i' :: 'n' :: 'g' ::
            (w3 ++ 'c' :: 'o' :: 'd' :: 'e' :: (w4 ++ '.' :: '.' :: '.' :: rest)))) := by
  constructor
  · intro h
    obtain ⟨p, t, e, hf⟩ := markerSearch_eq_true l h
    obtain ⟨w1, w2, w3, w4, rest, h1, h2, h3, h4, ht⟩ := markerFrom_eq_true t hf
    exact ⟨p, w1, w2, w3, w4, rest, h1, h2, h3, h4, by rw [e, ht]⟩
  · rintro ⟨p, w1, w2, w3, w4, rest, h1, h2, h3, h4, e⟩
    rw [e]
    exact markerSearch_append_of_from p _ (markerFrom_of_decomp w1 w2 w3 w4 rest h1 h2 h3 h4)

theorem segmentCore_no_marker : ∀ (ls current : List Line),
    (∀ l ∈ ls, markerSearch l = false) →
    segmentCore ls current = if (current ++ ls).isEmpty then [] else [current ++ ls] := by
  intro ls
  induction ls with
  | nil => intro current _; simp [segmentCore]
  | cons l rest ih =>
    intro current h
    have hl : markerSearch l = false := h l (List.mem_cons_self l rest)
    simp only [segmentCore, hl, Bool.false_eq_true, if_false]
    rw [ih (current ++ [l]) fun x hx => h x (List.mem_cons_of_mem l hx)]
    simp

/-- C6 counterexample: for the empty edit text (which contains no marker
line), segmentation yields zero fragments, not one fragment consisting of
the entire text. -/
theorem c6_counterexample :
    editBlocks (rustLines []) = [] ∧ (editBlocks (rustLines [])).length ≠ 1 := by decide

/-- C6 amended: for a NON-EMPTY edit text with no marker line the entire
text is one fragment; two adjacent markers contribute no fragment; and if
segmentation yields zero fragments while the (non-empty) text remains, the
whole text is used as a single fragment. -/
theorem c6_amended_segmentation (lines : List Line) (hne : lines ≠ []) :
    ((∀ l ∈ lines, markerSearch l = false) → editBlocks lines = [lines]) ∧
    (∀ (m1 m2 : Line) (rest current : List Line), markerSearch m1 = true →
      markerSearch m2 = true →
      segmentCore (m1 :: m2 :: rest) current = segmentCore (m1 :: rest) current) ∧
    (segmentCore lines [] = [] → editBlocks lines = [lines]) := by
  rcases lines with _ | ⟨a, as⟩
  · exact absurd rfl hne
  refine ⟨?_, ?_, ?_⟩
  · intro hnm
    have hb : segmentCore (a :: as) [] = [a :: as] := by
      rw [segmentCore_no_marker _ [] hnm]
      simp
    simp [editBlocks, hb]
  · intro m1 m2 rest current hm1 hm2
    simp only [segmentCore, hm1, hm2, if_true, List.isEmpty_nil]
  · intro h
    simp [editBlocks, h]

/-- Witness for `c6_amended_segmentation` at a concrete one-line edit. -/
theorem c6_amended_segmentation_witness :
    ([[ 'a' ]] : List Line) ≠ [] ∧
    (((∀ l ∈ ([[ 'a' ]] : List Line), markerSearch l = false) →
      editBlocks [['a']] = [[['a']]]) ∧
    (∀ (m1 m2 : Line) (rest current : List Line), markerSearch m1 = true →
      markerSearch m2 = true →
      segmentCore (m1 :: m2 :: rest) current = segmentCore (m1 :: rest) current) ∧
    (segmentCore [['a']] [] = [] → editBlocks [['a']] = [[['a']]])) :=
  ⟨by decide, c6_amended_segmentation [['a']] (by decide)⟩

theorem stripCrOnce_no_cr (l : Line) (h : '\r' ∉ l) : stripCrOnce l = l := by
  unfold stripCrOnce
  by_cases hl : l.getLast? = some '\r'
  · exact absurd (List.mem_of_mem_getLast? (Option.mem_def.mpr hl)) h
  · rw [if_neg hl]

theorem linesGo_cons_nl (cur rest : List Char) :
    linesGo cur ('\n' :: rest) =
      stripCrOnce cur.reverse :: (if rest.isEmpty = true then [] else linesGo [] rest) := by
  simp [linesGo]

theorem joinLines_cons_cons (a b : Line) (ls : List Line) :
    joinLines (a :: b :: ls) = a ++ '\n' :: joinLines (b :: ls) := rfl

theorem stripFinalNewline_cons (c : Char) (s : List Char) (h : s ≠ []) :
    stripFinalNewline (c :: s) = c :: stripFinalNewline s := by
  rcases s with _ | ⟨b, t⟩
  · exact absurd rfl h
  unfold stripFinalNewline
  rw [List.getLast?_cons_cons]
  by_cases hl : (b :: t).getLast? = some '\n'
  · rw [if_pos hl, if_pos hl]
    rfl
  · rw [if_neg hl, if_neg hl]

theorem linesGo_ne_nil : ∀ (s cur : List Char), linesGo cur s ≠ [] := by
  intro s
  induction s with
  | nil => intro cur; simp [linesGo]
  | cons c rest ih =>
    intro cur
    by_cases hc : c = '\n'
    · simp only [linesGo, if_pos hc]
      split_ifs <;> simp
    · simp only [linesGo, if_neg hc]
      exact ih (c :: cur)

theorem joinLines_linesGo : ∀ (s cur : List Char), '\r' ∉ s → '\r' ∉ cur →
    joinLines (linesGo cur s) = cur.reverse ++ stripFinalNewline s := by
  intro s
  induction s with
  | nil =>
    intro cur _ _
    simp [linesGo, joinLines, stripFinalNewline]
  | cons c rest ih =>
    intro cur hs hcur
    have hsr : '\r' ∉ rest := fun hm => hs (List.mem_cons_of_mem c hm)
    have hcr : c ≠ '\r' := fun e => hs (e ▸ List.mem_cons_self c rest)
    have hrev : '\r' ∉ cur.reverse := by simpa using hcur
    by_cases hc : c = '\n'
    · subst hc
      rw [linesGo_cons_nl]
      by_cases hr : rest.isEmpty = true
      · have hre : rest = [] := by simpa [List.isEmpty_iff] using hr
        subst hre
        simp only [List.isEmpty_nil, if_true]
        simp [joinLines, stripCrOnce_no_cr _ hrev, stripFinalNewline]
      · rw [if_neg hr]
        have hrne : rest ≠ [] := by simpa [List.isEmpty_iff] using hr
        obtain ⟨b, l2, hbl⟩ : ∃ b l2, linesGo ([] : List Char) rest = b :: l2 := by
          cases hgl : linesGo ([] : List Char) rest with
          | nil => exact absurd hgl (linesGo_ne_nil rest [])
          | cons b l2 => exact ⟨b, l2, rfl⟩
        rw [hbl, joinLines_cons_cons, ← hbl, ih [] hsr (by simp),
          stripCrOnce_no_cr _ hrev, stripFinalNewline_cons _ _ hrne]
        simp
    · simp only [linesGo, if_neg hc]
      rw [ih (c :: cur) hsr (by
        intro hm
        rcases List.mem_cons.mp hm with e | e
        · exact hcr e.symm
        · exact hcur e)]
      rcases rest with _ | ⟨d, t⟩
      · simp [stripFinalNewline, hc]
      · rw [stripFinalNewline_cons c (d :: t) (by simp)]
        simp

/-- C10 counterexample: for original content `"a\r\n"` and an empty edit,
the buffer equals the original lines, but the written content is `"a"`,
not the original content with its final newline removed (`"a\r"`): Rust's
`lines()` also strips the `\r` of a `\r\n` terminator. -/
theorem c10_counterexample :
    apply_edit "a\r\n".toList [] = rustLines "a\r\n".toList ∧
    new_content "a\r\n".toList [] ≠ stripFinalNewline ("a\r\n".toList) := by decide

/-- C10 amended: the written content is the working-buffer lines joined by
newline (no trailing newline appended); for an empty edit specification
the buffer equals the original file's lines, and — for original content
free of carriage returns — the written content equals the original with a
single final trailing newline removed. -/
theorem c10_amended (original code_edit : List Char) (h : '\r' ∉ original) :
    new_content original code_edit = joinLines (apply_edit original code_edit) ∧
    apply_edit original [] = rustLines original ∧
    new_content original [] = stripFinalNewline original := by
  refine ⟨rfl, rfl, ?_⟩
  show joinLines (apply_edit original []) = _
  have he : apply_edit original [] = rustLines original := rfl
  rw [he]
  unfold rustLines
  by_cases ho : original.isEmpty = true
  · have : original = [] := by simpa [List.isEmpty_iff] using ho
    subst this
    simp [joinLines, stripFinalNewline]
  · rw [if_neg ho]
    simpa using joinLines_linesGo original [] h (by simp)

/-- Witness for `c10_amended` at a concrete two-line original. -/
theorem c10_amended_witness :
    '\r' ∉ "x\ny".toList ∧
    (new_content "x\ny".toList [] = joinLines (apply_edit "x\ny".toList []) ∧
    apply_edit "x\ny".toList [] = rustLines "x\ny".toList ∧
    new_content "x\ny".toList [] = stripFinalNewline ("x\ny".toList)) :=
  ⟨by decide, c10_amended "x\ny".toList [] (by decide)⟩

/-- C8: the diff tags every output line with exactly one of
unchanged/removed/added, and concatenating unchanged+removed lines in
order reproduces the original while unchanged+added reproduces the final
text. -/
theorem c8_diff_roundtrip (orig final : List Line) :
    (((diffLines orig final).filter fun p => decide (p.1 ≠ DiffTag.added)).map
      Prod.snd = orig) ∧
    (((diffLines orig final).filter fun p => decide (p.1 ≠ DiffTag.removed)).map
      Prod.snd = final) := by
  induction orig, final using diffLines.induct with
  | case1 ys =>
    constructor
    · simp [diffLines, List.filter_map, Function.comp]
    · simp [diffLines, List.filter_map, Function.comp]
  | case2 x xs ih =>
    constructor
    · simpa [diffLines] using ih.1
    · simpa [diffLines] using ih.2
  | case3 xs y ys ih =>
    constructor
    · simpa [diffLines] using ih.1
    · simpa [diffLines] using ih.2
  | case4 x xs y ys hne hle ih =>
    constructor
    · simpa [diffLines, hne, hle] using ih.1
    · simpa [diffLines, hne, hle] using ih.2
  | case5 x xs y ys hne hgt ih =>
    constructor
    · simpa [diffLines, hne, hgt] using ih.1
    · simpa [diffLines, hne, hgt] using ih.2

